import Mathlib

/-!
Verification development for the simple-db engine.

Shallow embedding of the core components (lock manager, append log,
HNSW index, KV store, transaction manager, CASPaxos register) translated
from the C++ sources, together with theorems settling the specification
claims about them.

Modelling conventions:
* machine integers become `Nat` (with explicit `% 2 ^ w` where a field is
  truncated on serialization);
* `std::set` / `std::unordered_set` members become lists kept duplicate
  free; iteration order of unordered containers, which the C++ standard
  leaves unspecified, is the list order of the model;
* IEEE-754 floats become the elements of a linearly ordered commutative
  ring `α` (instantiated with `ℤ` at concrete inputs).  Euclidean distance
  is modelled without the final square root: `sqrt` is strictly monotone,
  so every comparison the algorithms perform is unchanged; reported
  distances are therefore squared distances.  The mismatched-dimension
  sentinel `FLT_MAX` is modelled as `⊤` in `WithTop α`;
* the random level of an HNSW insert (drawn from the RNG in
  `get_random_level`) is an explicit argument of the model;
* blocking calls (`cv.wait`) are modelled by returning a "blocked" outcome
  together with the queue state holding the pending request.
-/

namespace SimpleDB

/-! ### Lock manager (`src/transaction/lock_manager.cpp`)

Per-key state of `LockManager::LockQueue`: the FIFO request vector, the
set of shared holders and the optional exclusive holder (`0` encodes
"none", exactly as `holder_exclusive = 0` does in the C++). -/

inductive LockMode where
  | shared
  | exclusive
deriving DecidableEq, Repr

structure LockRequest where
  txnId : Nat
  mode : LockMode
  granted : Bool
deriving DecidableEq, Repr

structure LockQueue where
  requests : List LockRequest
  holdersShared : List Nat
  holderExclusive : Nat
deriving DecidableEq, Repr

def LockQueue.empty : LockQueue := ⟨[], [], 0⟩

/-- Insert into the (duplicate-free) holder set, mirroring `std::set::insert`. -/
def holdersInsert (t : Nat) (l : List Nat) : List Nat :=
  if t ∈ l then l else l ++ [t]

/-- `LockManager::can_grant_lock`: a shared lock needs no exclusive holder,
an exclusive lock needs no holder at all. -/
def canGrantLock (q : LockQueue) (mode : LockMode) : Bool :=
  match mode with
  | .shared => q.holderExclusive == 0
  | .exclusive => q.holderExclusive == 0 && q.holdersShared.isEmpty

/-- The loop body of `LockManager::grant_locks`: scan the requests in FIFO
order; grant a shared request whenever there is no exclusive holder; grant
an exclusive request only when there is no holder at all, and stop the scan
(`break`) after granting one exclusive. Returns the rewritten request list
together with the updated holder sets. -/
def grantLocksGo : List LockRequest → List Nat → Nat → List LockRequest × List Nat × Nat
  | [], sh, ex => ([], sh, ex)
  | r :: rest, sh, ex =>
    if r.granted then
      let (rs, sh', ex') := grantLocksGo rest sh ex
      (r :: rs, sh', ex')
    else
      match r.mode with
      | .exclusive =>
        if ex = 0 ∧ sh = [] then
          ({ r with granted := true } :: rest, sh, r.txnId)
        else
          let (rs, sh', ex') := grantLocksGo rest sh ex
          (r :: rs, sh', ex')
      | .shared =>
        if ex = 0 then
          let (rs, sh', ex') := grantLocksGo rest (holdersInsert r.txnId sh) ex
          ({ r with granted := true } :: rs, sh', ex')
        else
          let (rs, sh', ex') := grantLocksGo rest sh ex
          (r :: rs, sh', ex')

/-- `LockManager::grant_locks` on a queue. -/
def grantLocks (q : LockQueue) : LockQueue :=
  ⟨(grantLocksGo q.requests q.holdersShared q.holderExclusive).1,
   (grantLocksGo q.requests q.holdersShared q.holderExclusive).2.1,
   (grantLocksGo q.requests q.holdersShared q.holderExclusive).2.2⟩

/-- Effect of `LockManager::acquire_lock` on the key's queue: grant
immediately when `can_grant_lock` allows it, otherwise push the request at
the back of the FIFO queue (the caller then blocks on the condition
variable). -/
def applyAcquire (q : LockQueue) (t : Nat) (m : LockMode) : LockQueue :=
  if canGrantLock q m then
    match m with
    | .shared => { q with holdersShared := holdersInsert t q.holdersShared }
    | .exclusive => { q with holderExclusive := t }
  else
    { q with requests := q.requests ++ [⟨t, m, false⟩] }

/-- Effect of `LockManager::release_lock` (and, per held key, of
`release_all_locks`) on the key's queue: erase the holder and rerun the
granting scan. -/
def applyRelease (q : LockQueue) (t : Nat) : LockQueue :=
  grantLocks
    { q with
      holdersShared := q.holdersShared.erase t
      holderExclusive := if q.holderExclusive = t then 0 else q.holderExclusive }

/-- Effect of the tail of `acquire_lock` once a blocked requester wakes up:
it erases every request carrying its transaction id from the queue. -/
def applyWake (q : LockQueue) (t : Nat) : LockQueue :=
  { q with requests := q.requests.filter (fun r => r.txnId ≠ t) }

inductive LockOp where
  | acquire (t : Nat) (m : LockMode)
  | release (t : Nat)
  | wake (t : Nat)
deriving DecidableEq, Repr

def applyLockOp (q : LockQueue) : LockOp → LockQueue
  | .acquire t m => applyAcquire q t m
  | .release t => applyRelease q t
  | .wake t => applyWake q t

def runLockOps (ops : List LockOp) : LockQueue :=
  ops.foldl applyLockOp LockQueue.empty

/-- The mutual-exclusion shape of a queue: an exclusive holder (a nonzero
`holderExclusive`) excludes all shared holders. At most one exclusive
holder exists by representation, exactly as in the C++ struct. -/
def LockQueue.Excl (q : LockQueue) : Prop :=
  q.holderExclusive ≠ 0 → q.holdersShared = []

theorem grantLocksGo_ex_ne_zero (reqs : List LockRequest) (sh : List Nat) (ex : Nat)
    (hex : ex ≠ 0) : grantLocksGo reqs sh ex = (reqs, sh, ex) := by
  induction reqs with
  | nil => rfl
  | cons r rest ih =>
    cases hr : r.granted with
    | true =>
      simp only [grantLocksGo, hr, if_pos, ih]
    | false =>
      cases hm : r.mode with
      | exclusive =>
        simp only [grantLocksGo, hr, hm, Bool.false_eq_true, if_false]
        rw [if_neg (by simp [hex]), ih]
      | shared =>
        simp only [grantLocksGo, hr, hm, Bool.false_eq_true, if_false]
        rw [if_neg hex, ih]

theorem grantLocksGo_excl (reqs : List LockRequest) (sh : List Nat) :
    (grantLocksGo reqs sh 0).2.2 ≠ 0 → (grantLocksGo reqs sh 0).2.1 = [] := by
  induction reqs generalizing sh with
  | nil => intro h; exact absurd rfl h
  | cons r rest ih =>
    intro h
    cases hr : r.granted with
    | true =>
      simp only [grantLocksGo, hr, if_pos] at h ⊢
      exact ih sh h
    | false =>
      cases hm : r.mode with
      | exclusive =>
        simp only [grantLocksGo, hr, hm, Bool.false_eq_true, if_false] at h ⊢
        by_cases hsh : sh = []
        · rw [if_pos (by simp [hsh])] at h ⊢
          exact hsh
        · rw [if_neg (by simp [hsh])] at h ⊢
          exact ih sh h
      | shared =>
        simp only [grantLocksGo, hr, hm, Bool.false_eq_true, if_false, if_pos] at h ⊢
        exact ih (holdersInsert r.txnId sh) h

theorem grantLocks_excl (q : LockQueue) (h : q.Excl) : (grantLocks q).Excl := by
  intro hne
  unfold grantLocks at hne ⊢
  simp only at hne ⊢
  by_cases hex : q.holderExclusive = 0
  · rw [hex] at hne ⊢
    exact grantLocksGo_excl _ _ hne
  · rw [grantLocksGo_ex_ne_zero _ _ _ hex] at hne ⊢
    exact h hex

theorem applyLockOp_excl (q : LockQueue) (op : LockOp) (h : q.Excl) :
    (applyLockOp q op).Excl := by
  cases op with
  | acquire t m =>
    simp only [applyLockOp, applyAcquire]
    by_cases hg : canGrantLock q m
    · rw [if_pos hg]
      cases m with
      | shared =>
        simp only [canGrantLock, beq_iff_eq] at hg
        intro hne; exact absurd hg hne
      | exclusive =>
        simp only [canGrantLock, Bool.and_eq_true, beq_iff_eq, List.isEmpty_iff] at hg
        intro _; exact hg.2
    · rw [if_neg hg]; exact h
  | release t =>
    simp only [applyLockOp, applyRelease]
    apply grantLocks_excl
    intro hne
    simp only at hne ⊢
    by_cases heq : q.holderExclusive = t
    · rw [if_pos heq] at hne; exact absurd rfl hne
    · rw [if_neg heq] at hne
      rw [h hne, List.erase_nil]
  | wake t =>
    simp only [applyLockOp, applyWake]
    exact h

/-- C5: every state of a key's lock queue reachable from the empty queue by
acquire / release / wake steps keeps exclusive and shared holders mutually
exclusive. -/
theorem lockQueue_reachable_excl (ops : List LockOp) : (runLockOps ops).Excl := by
  unfold runLockOps
  induction ops using List.reverseRecOn with
  | nil => intro h; exact absurd rfl h
  | append_singleton ops op ih =>
    rw [List.foldl_append, List.foldl_cons, List.foldl_nil]
    exact applyLockOp_excl _ op ih

theorem holdersInsert_ne_nil (t : Nat) (l : List Nat) : holdersInsert t l ≠ [] := by
  unfold holdersInsert
  by_cases h : t ∈ l
  · rw [if_pos h]
    intro hc
    rw [hc] at h
    exact absurd h (List.not_mem_nil t)
  · rw [if_neg h]
    simp

/-- C4 (counterexample): transaction 2 holds X; transactions 6 (S), 5 (X)
and 7 (S) queue up behind it in FIFO order; then 2 releases. `grant_locks`
grants both shared requests — including request 7 which was queued *behind*
the exclusive request 5 — while 5 is left waiting, so a shared lock is
granted by skipping past a pending exclusive request. -/
theorem grantLocks_skips_pending_exclusive :
    (runLockOps [.acquire 2 .exclusive, .acquire 6 .shared, .acquire 5 .exclusive,
                 .acquire 7 .shared, .release 2]).holdersShared = [6, 7] ∧
    (⟨5, .exclusive, false⟩ : LockRequest) ∈
      (runLockOps [.acquire 2 .exclusive, .acquire 6 .shared, .acquire 5 .exclusive,
                   .acquire 7 .shared, .release 2]).requests := by
  constructor
  · rfl
  · decide

/-- C4 (amended): the waiters are scanned in FIFO order, but there is no
pending-writer priority. Whenever no exclusive holder exists but shared
holders remain, `grant_locks` grants every waiting shared request — also the
ones queued behind a waiting exclusive request — and grants no exclusive
request; and `can_grant_lock` admits a newly arriving shared request
whenever there is no exclusive holder, regardless of the waiting queue. -/
theorem grantLocks_fifo_without_writer_priority (reqs : List LockRequest) (sh : List Nat)
    (hsh : sh ≠ []) :
    canGrantLock ⟨reqs, sh, 0⟩ .shared = true ∧
    (grantLocksGo reqs sh 0).2.2 = 0 ∧
    (grantLocksGo reqs sh 0).1 =
      reqs.map (fun r => if r.mode = .shared then { r with granted := true } else r) := by
  refine ⟨by simp [canGrantLock], ?_⟩
  induction reqs generalizing sh with
  | nil => simp [grantLocksGo]
  | cons r rest ih =>
    obtain ⟨tid, rm, rg⟩ := r
    cases rg with
    | true =>
      have h := ih sh hsh
      simp [grantLocksGo, h.1, h.2, ite_self]
    | false =>
      cases rm with
      | exclusive =>
        have h := ih sh hsh
        simp [grantLocksGo, hsh, h.1, h.2]
      | shared =>
        have h := ih (holdersInsert tid sh) (holdersInsert_ne_nil _ _)
        simp [grantLocksGo, h.1, h.2]

theorem grantLocks_fifo_without_writer_priority_witness :
    ([1] : List Nat) ≠ [] ∧
    (canGrantLock ⟨[⟨5, .exclusive, false⟩], [1], 0⟩ .shared = true ∧
     (grantLocksGo [⟨5, .exclusive, false⟩] [1] 0).2.2 = 0 ∧
     (grantLocksGo [⟨5, .exclusive, false⟩] [1] 0).1 =
       [⟨5, .exclusive, false⟩].map
         (fun r => if r.mode = .shared then { r with granted := true } else r)) :=
  ⟨by decide, grantLocks_fifo_without_writer_priority [⟨5, .exclusive, false⟩] [1] (by decide)⟩

/-! ### Append log (`src/storage/append_log.cpp` / `rtree.cpp` tail segment)

The current `AppendLog::serialize_record` writes, unaligned and
little-endian: `u8 type`, `u64 txn_id`, `u64 timestamp`, `u8 is_vector`,
`u32 key_len`, the key bytes, `u32 data_len`, the payload bytes. The
payload of a vector record is the raw `memcpy` of its 32-bit floats, which
we model by each float's 32-bit pattern. (An older duplicate of
`serialize_record` without the `is_vector` byte also survives in the tree;
the engine's current record format is the one embedded here.) -/

/-- Little-endian byte encoding of the low `w` bytes of `n`, as `memcpy`
of a little-endian integer into `w` buffer bytes produces. -/
def leBytes (w : Nat) (n : Nat) : List Nat :=
  (List.range w).map (fun i => n / 256 ^ i % 256)

inductive SerPayload where
  | str (bytes : List Nat)
  | vec (floats : List Nat)
deriving DecidableEq, Repr

/-- The on-disk payload bytes: raw bytes for a string record, the
concatenated 4-byte patterns of the floats for a vector record. -/
def SerPayload.bytes : SerPayload → List Nat
  | .str bs => bs
  | .vec fs => (fs.map (leBytes 4)).flatten

/-- `data_len` as computed by `serialize_record`. -/
def SerPayload.dataLen (p : SerPayload) : Nat := p.bytes.length

structure SerRecord where
  type : Nat
  txnId : Nat
  timestamp : Nat
  isVector : Bool
  key : List Nat
  payload : SerPayload
deriving DecidableEq, Repr

/-- `AppendLog::serialize_record` (the `is_vector` variant). -/
def serializeRecord (r : SerRecord) : List Nat :=
  [r.type % 256] ++ leBytes 8 r.txnId ++ leBytes 8 r.timestamp
    ++ [if r.isVector then 1 else 0]
    ++ leBytes 4 r.key.length ++ r.key
    ++ leBytes 4 r.payload.dataLen ++ r.payload.bytes

/-- The log file together with the writer's `current_offset_` cursor. -/
structure AppendLogFile where
  data : List Nat
  currentOffset : Nat
deriving DecidableEq, Repr

/-- `AppendLog::append`: remember the cursor, write the serialized record,
advance the cursor by its size, and return the remembered cursor. -/
def appendLogAppend (s : AppendLogFile) (r : SerRecord) : Nat × AppendLogFile :=
  (s.currentOffset,
   ⟨s.data ++ serializeRecord r, s.currentOffset + (serializeRecord r).length⟩)

theorem leBytes_length (w n : Nat) : (leBytes w n).length = w := by
  simp [leBytes]

/-- C6: a serialized record occupies exactly `26 + key_len + data_len`
bytes; it is the concatenation, with no padding, of the one-byte type, the
eight-byte little-endian txn id, the eight-byte little-endian timestamp,
the one-byte `is_vector` flag, the four-byte little-endian key length, the
key bytes, the four-byte little-endian data length and the payload bytes
(a vector payload being `data_len / 4` four-byte floats); and `append`
returns the byte offset at which the record begins: the new file contents
are the old contents followed by the record starting at that offset. -/
theorem append_record_layout (s : AppendLogFile) (r : SerRecord)
    (hoff : s.currentOffset = s.data.length) :
    (serializeRecord r).length = 26 + r.key.length + r.payload.dataLen
    ∧ (∀ fs, r.payload = .vec fs → r.payload.dataLen = 4 * fs.length)
    ∧ serializeRecord r
        = [r.type % 256] ++ leBytes 8 r.txnId ++ leBytes 8 r.timestamp
          ++ [if r.isVector then 1 else 0] ++ leBytes 4 r.key.length ++ r.key
          ++ leBytes 4 r.payload.dataLen ++ r.payload.bytes
    ∧ (∀ n, (leBytes 8 n).length = 8) ∧ (∀ n, (leBytes 4 n).length = 4)
    ∧ (appendLogAppend s r).1 = s.data.length
    ∧ (appendLogAppend s r).2.data = s.data ++ serializeRecord r
    ∧ ((appendLogAppend s r).2.data).drop (appendLogAppend s r).1 = serializeRecord r
    ∧ (appendLogAppend s r).2.currentOffset = (appendLogAppend s r).2.data.length := by
  have hvec : ∀ fs, r.payload = .vec fs → r.payload.dataLen = 4 * fs.length := by
    intro fs hp
    rw [hp]
    simp only [SerPayload.dataLen, SerPayload.bytes]
    rw [List.length_flatten]
    have : (List.length ∘ leBytes 4) = fun _ : Nat => 4 := by
      funext n
      simp [leBytes_length]
    simp [this, List.map_const, Nat.mul_comm]
  refine ⟨?_, hvec, rfl, fun n => leBytes_length 8 n, fun n => leBytes_length 4 n,
    hoff, rfl, ?_, ?_⟩
  · simp only [serializeRecord, List.length_append, List.length_cons, List.length_nil,
      leBytes_length, SerPayload.dataLen]
    omega
  · simp only [appendLogAppend, hoff]
    exact List.drop_left s.data (serializeRecord r)
  · simp only [appendLogAppend, hoff, List.length_append]

theorem append_record_layout_witness :
    (AppendLogFile.mk [9] 1).currentOffset = (AppendLogFile.mk [9] 1).data.length
    ∧ ((serializeRecord ⟨1, 7, 11, true, [107], SerPayload.vec [5]⟩).length
          = 26 + ([107] : List Nat).length + (SerPayload.vec [5]).dataLen
       ∧ (∀ fs, (SerPayload.vec [5] : SerPayload) = .vec fs
            → (SerPayload.vec [5]).dataLen = 4 * fs.length)
       ∧ serializeRecord ⟨1, 7, 11, true, [107], SerPayload.vec [5]⟩
           = [1 % 256] ++ leBytes 8 7 ++ leBytes 8 11
             ++ [if true then 1 else 0] ++ leBytes 4 ([107] : List Nat).length ++ [107]
             ++ leBytes 4 (SerPayload.vec [5]).dataLen ++ (SerPayload.vec [5]).bytes
       ∧ (∀ n, (leBytes 8 n).length = 8) ∧ (∀ n, (leBytes 4 n).length = 4)
       ∧ (appendLogAppend ⟨[9], 1⟩ ⟨1, 7, 11, true, [107], SerPayload.vec [5]⟩).1
           = ([9] : List Nat).length
       ∧ (appendLogAppend ⟨[9], 1⟩ ⟨1, 7, 11, true, [107], SerPayload.vec [5]⟩).2.data
           = [9] ++ serializeRecord ⟨1, 7, 11, true, [107], SerPayload.vec [5]⟩
       ∧ ((appendLogAppend ⟨[9], 1⟩ ⟨1, 7, 11, true, [107], SerPayload.vec [5]⟩).2.data).drop
             (appendLogAppend ⟨[9], 1⟩ ⟨1, 7, 11, true, [107], SerPayload.vec [5]⟩).1
           = serializeRecord ⟨1, 7, 11, true, [107], SerPayload.vec [5]⟩
       ∧ (appendLogAppend ⟨[9], 1⟩ ⟨1, 7, 11, true, [107], SerPayload.vec [5]⟩).2.currentOffset
           = (appendLogAppend ⟨[9], 1⟩ ⟨1, 7, 11, true, [107], SerPayload.vec [5]⟩).2.data.length) :=
  ⟨rfl, append_record_layout ⟨[9], 1⟩ ⟨1, 7, 11, true, [107], SerPayload.vec [5]⟩ rfl⟩

/-! ### HNSW index (`src/storage/hnsw.cpp`)

The engine constructs its index as `HNSW(dimension)` — defaults `M = 16`,
`max_M = 32`, `ef_construction = 200`, `ef_search = 50`, Euclidean metric.
Distances are modelled as squared Euclidean distances in `WithTop ℚ`
(`sqrt` is strictly monotone, so every comparison is unchanged; `⊤` models
the `FLT_MAX` sentinel for a dimension mismatch). The level a new node
draws from the RNG is an explicit argument. The two `std::priority_queue`s
of `search_layer` are built with flipped comparators in the source —
`candidates` pops the *farthest* unexplored node and `results` evicts the
*nearest* on overflow — and the model mirrors that faithfully. -/

variable {α : Type} [LinearOrderedCommRing α]

abbrev Vec (α : Type) := List α
abbrev Dist (α : Type) := WithTop α

structure HNSWNode (α : Type) where
  vector : Vec α
  fileOffset : Nat
  maxLevel : Nat
  neighbors : List (List String)
deriving DecidableEq, Repr

abbrev NodeMap (α : Type) := List (String × HNSWNode α)

/-- `HNSW::compute_distance` for the Euclidean metric, squared (order
preserving); the dimension-mismatch sentinel is `⊤`. -/
def computeDistance (dim : Nat) (a b : Vec α) : Dist α :=
  if a.length ≠ b.length ∨ a.length ≠ dim then ⊤
  else (((a.zip b).map (fun p => (p.1 - p.2) ^ 2)).sum : α)

/-- `nodes_[k]` dereference; the C++ would be undefined on a missing key,
the model returns an inert default node. -/
def nodeD (nodes : NodeMap α) (k : String) : HNSWNode α :=
  (nodes.lookup k).getD ⟨[], 0, 0, []⟩

/-- Insert into a duplicate-free key list (`std::unordered_set::insert`). -/
def setInsertStr (x : String) (l : List String) : List String :=
  if x ∈ l then l else l ++ [x]

/-- State of the `search_layer` loop: the visited set, the `candidates`
heap (popped at its maximum distance, as the flipped comparator does) and
the `results` heap kept as a list ascending by distance (its top — the
popped element — is the minimum, as the flipped comparator does). -/
structure SLState (α : Type) where
  visited : List String
  cands : List (Dist α × String)
  results : List (Dist α × String)
deriving DecidableEq, Repr

/-- Pop the leftmost maximum-distance entry (`candidates.top/pop` under the
`a.first < b.first` comparator, which makes the queue a max-heap). -/
def popMax : List (Dist α × String) → Option ((Dist α × String) × List (Dist α × String))
  | [] => none
  | e :: rest =>
    match popMax rest with
    | none => some (e, [])
    | some (m, rest') => if m.1 > e.1 then some (m, e :: rest') else some (e, rest)

/-- Insert keeping the list ascending by distance (ties go behind). -/
def insertAsc (e : Dist α × String) : List (Dist α × String) → List (Dist α × String)
  | [] => [e]
  | f :: rest => if e.1 < f.1 then e :: f :: rest else f :: insertAsc e rest

/-- `results.top().first` under the flipped comparator: the minimum. -/
def minDist : List (Dist α × String) → Dist α
  | [] => ⊤
  | f :: _ => f.1

/-- Body of the neighbor scan inside `search_layer`'s main loop. -/
def slProcessNeighbor (dim : Nat) (nodes : NodeMap α) (deleted : List String) (q : Vec α)
    (ef : Nat) (st : SLState α) (nk : String) : SLState α :=
  if nk ∈ st.visited then st
  else
    let visited' := st.visited ++ [nk]
    if nk ∈ deleted then { st with visited := visited' }
    else
      let d := computeDistance dim q (nodeD nodes nk).vector
      if st.results.length < ef ∨ d < minDist st.results then
        let results' := insertAsc (d, nk) st.results
        let results'' := if results'.length > ef then results'.tail else results'
        ⟨visited', st.cands ++ [(d, nk)], results''⟩
      else { st with visited := visited' }

/-- The `while (!candidates.empty())` loop of `search_layer`, fuelled. -/
def slLoop (dim : Nat) (nodes : NodeMap α) (deleted : List String) (q : Vec α)
    (ef : Nat) (level : Nat) : Nat → SLState α → SLState α
  | 0, st => st
  | fuel + 1, st =>
    match popMax st.cands with
    | none => st
    | some (cur, rest) =>
      if st.results.length ≥ ef ∧ cur.1 > minDist st.results then
        { st with cands := rest }
      else
        let node := nodeD nodes cur.2
        let st' :=
          if level < node.neighbors.length then
            (node.neighbors.getD level []).foldl
              (slProcessNeighbor dim nodes deleted q ef) { st with cands := rest }
          else { st with cands := rest }
        slLoop dim nodes deleted q ef level fuel st'

/-- Fuel bound: every loop iteration pops one candidate and only
never-visited keys are ever pushed, so the seed plus every key occurring in
some neighbor list bounds the iteration count. -/
def slFuel (nodes : NodeMap α) : Nat :=
  (nodes.map (fun kn => (kn.2.neighbors.map List.length).sum)).sum + nodes.length + 2

/-- `HNSW::search_layer`: seed both heaps with the entry (without a
tombstone check), run the loop, then drain `results` — the min-heap yields
ascending order and the final `std::reverse` turns it descending, so the
returned keys are ordered farthest first. -/
def searchLayer (dim : Nat) (nodes : NodeMap α) (deleted : List String)
    (q : Vec α) (entry : String) (ef : Nat) (level : Nat) : List String :=
  let d0 := computeDistance dim q (nodeD nodes entry).vector
  let fin := slLoop dim nodes deleted q ef level (slFuel nodes)
    ⟨[entry], [(d0, entry)], [(d0, entry)]⟩
  (fin.results.map (fun e => e.2)).reverse

/-- `HNSW::select_neighbors_heuristic`: candidate lists not exceeding the
cap are returned as they are (tombstones included); otherwise tombstones
are dropped, the rest sorted by (distance, key) as `std::sort` on
`pair<float, string>` does, and the first `m` kept. -/
def selectNeighborsHeuristic (dim : Nat) (nodes : NodeMap α) (deleted : List String)
    (cands : List String) (q : Vec α) (m : Nat) : List String :=
  if cands.length ≤ m then cands
  else
    let ds := (cands.filter (fun c => decide (c ∉ deleted))).map
      (fun c => (computeDistance dim q (nodeD nodes c).vector, c))
    let sorted := ds.mergeSort (fun a b => a.1 < b.1 ∨ (a.1 = b.1 ∧ ¬ b.2 < a.2))
    (sorted.take m).map (fun e => e.2)

structure HNSWState (α : Type) where
  dim : Nat
  m : Nat
  maxM : Nat
  efConstruction : Nat
  nodes : NodeMap α
  deleted : List String
  entry : String
deriving DecidableEq, Repr

/-- `HNSW(dim)` with the default parameters. -/
def hnswInit (dim : Nat) : HNSWState α := ⟨dim, 16, 32, 200, [], [], ""⟩

/-- Rewrite one node's neighbor table in place. -/
def updateNodeNeighbors (nodes : NodeMap α) (k : String)
    (f : List (List String) → List (List String)) : NodeMap α :=
  nodes.map (fun kn => if kn.1 = k then (kn.1, { kn.2 with neighbors := f kn.2.neighbors }) else kn)

/-- The per-neighbor body of the bidirectional-link loop in `HNSW::insert`:
link the new node to `nk` at layer `lc`, back-link `nk` to the new node if
`nk` exists and has that layer, and re-prune `nk`'s neighbor set when it
overflows the cap. -/
def addNeighborLinkNodes (dim : Nat) (deleted : List String) (key : String)
    (lc : Nat) (m : Nat) (nodes : NodeMap α) (nk : String) : NodeMap α :=
  let nodes1 := updateNodeNeighbors nodes key
    (fun nb => nb.set lc (setInsertStr nk (nb.getD lc [])))
  match nodes1.lookup nk with
  | none => nodes1
  | some nbNode =>
    if lc < nbNode.neighbors.length then
      let conns1 := setInsertStr key (nbNode.neighbors.getD lc [])
      let nodes2 := updateNodeNeighbors nodes1 nk (fun nb => nb.set lc conns1)
      if conns1.length > m then
        let pruned := selectNeighborsHeuristic dim nodes2 deleted conns1 nbNode.vector m
        updateNodeNeighbors nodes2 nk (fun nb => nb.set lc pruned)
      else nodes2
    else nodes1

/-- One layer of the wiring loop of `HNSW::insert` (from the node's level
down to 0): collect candidates, pick up to `M` (or `max_M` at layer 0)
neighbors, add bidirectional links, and advance `curr_nearest` to the first
candidate. -/
def insertAtLayer (key : String) (q : Vec α) (deleted : List String)
    (dim mPar maxM efc : Nat) (p : NodeMap α × String) (lc : Nat) : NodeMap α × String :=
  let cands := searchLayer dim p.1 deleted q p.2 efc lc
  let m := if lc = 0 then maxM else mPar
  let nbrs := selectNeighborsHeuristic dim p.1 deleted cands q m
  let nodes' := nbrs.foldl (addNeighborLinkNodes dim deleted key lc m) p.1
  let curr' := match cands with
    | [] => p.2
    | c :: _ => c
  (nodes', curr')

/-- The greedy 1-NN descent step (`search_layer(..., 1, lc)` followed by
`curr_nearest = candidates[0]` when non-empty). -/
def descendStep (dim : Nat) (nodes : NodeMap α) (deleted : List String)
    (q : Vec α) (c : String) (lc : Nat) : String :=
  match searchLayer dim nodes deleted q c 1 lc with
  | [] => c
  | c' :: _ => c'

/-- `HNSW::insert(key, vector, offset)` with the sampled level `lvl` made
explicit: reject a wrong-dimension vector or an already-present key (also a
tombstoned one) before touching anything; otherwise create the node, handle
the first-node case, descend from the entry level to `lvl + 1` with ef = 1,
wire layers `lvl..0`, and finally promote the new node to entry point when
its level exceeds the old entry's. -/
def hnswInsert (s : HNSWState α) (key : String) (v : Vec α) (off : Nat) (lvl : Nat) : HNSWState α :=
  if v.length ≠ s.dim then s
  else if (s.nodes.lookup key).isSome then s
  else
    let node : HNSWNode α := ⟨v, off, lvl, List.replicate (lvl + 1) []⟩
    let s1 : HNSWState α := { s with nodes := s.nodes ++ [(key, node)] }
    if s1.entry = "" then { s1 with entry := key }
    else
      let entryLevel := (nodeD s1.nodes s1.entry).maxLevel
      let curr0 := ((List.range' (lvl + 1) (entryLevel - lvl)).reverse).foldl
        (descendStep s1.dim s1.nodes s1.deleted v) s1.entry
      let wired := ((List.range (lvl + 1)).reverse).foldl
        (insertAtLayer key v s1.deleted s1.dim s1.m s1.maxM s1.efConstruction)
        (s1.nodes, curr0)
      let s2 : HNSWState α := { s1 with nodes := wired.1 }
      if lvl > (nodeD s2.nodes s2.entry).maxLevel then { s2 with entry := key } else s2

/-- `HNSW::remove`: tombstone only; the node, its edges and the entry point
are all retained. -/
def hnswRemove (s : HNSWState α) (key : String) : Bool × HNSWState α :=
  match s.nodes.lookup key with
  | none => (false, s)
  | some _ => (true, { s with deleted := setInsertStr key s.deleted })

/-- `HNSW::get`: the stored vector and offset iff present and not
tombstoned. -/
def hnswGet (s : HNSWState α) (key : String) : Option (Vec α × Nat) :=
  match s.nodes.lookup key with
  | none => none
  | some n => if key ∈ s.deleted then none else some (n.vector, n.fileOffset)

/-- `HNSW::search(query, k, ef_search)`: greedy descent with ef = 1 from
the entry level down to layer 1, one `search_layer` call with
`max(ef_search, k)` at layer 0, then walk the first `min(k, |candidates|)`
candidates, skipping tombstoned keys, and report each with its distance. -/
def hnswSearch (s : HNSWState α) (q : Vec α) (k : Nat) (efSearch : Nat := 50) :
    List (String × Dist α) :=
  if s.entry = "" ∨ q.length ≠ s.dim then []
  else
    let entryLevel := (nodeD s.nodes s.entry).maxLevel
    let curr := ((List.range' 1 entryLevel).reverse).foldl
      (descendStep s.dim s.nodes s.deleted q) s.entry
    let cands := searchLayer s.dim s.nodes s.deleted q curr (max efSearch k) 0
    (List.range (min k cands.length)).foldl
      (fun acc i =>
        let key := cands.getD i ""
        if key ∈ s.deleted then acc
        else acc ++ [(key, computeDistance s.dim q (nodeD s.nodes key).vector)])
      []

inductive HnswOp (α : Type) where
  | ins (key : String) (v : Vec α) (off : Nat) (lvl : Nat)
  | rem (key : String)
deriving DecidableEq, Repr

def applyHnswOp (s : HNSWState α) : HnswOp α → HNSWState α
  | .ins key v off lvl => hnswInsert s key v off lvl
  | .rem key => (hnswRemove s key).2

def runHnswOps (dim : Nat) (ops : List (HnswOp α)) : HNSWState α :=
  ops.foldl applyHnswOp (hnswInit dim)

def hnswOpKey : HnswOp α → String
  | .ins k _ _ _ => k
  | .rem k => k

/-- The (key, max_level) view of a node table: everything the entry-point
invariant depends on. -/
def levelProj : String × HNSWNode α → String × Nat :=
  fun kn => (kn.1, kn.2.maxLevel)

def nodeLevels (s : HNSWState α) : List (String × Nat) :=
  s.nodes.map levelProj

/-- C8's amended invariant: `entry_point_` is empty exactly when the node
table is, and a non-empty table stores the entry point with the maximum
`max_level` over all current nodes — tombstoned nodes included, since
`nodes_` never shrinks. -/
def EntryMax (s : HNSWState α) : Prop :=
  (s.entry = "" ↔ s.nodes = []) ∧
  (s.nodes ≠ [] → ∃ L, (nodeLevels s).lookup s.entry = some L ∧
      ∀ p ∈ nodeLevels s, p.2 ≤ L)

theorem updateNodeNeighbors_map_levels (nodes : NodeMap α) (k : String)
    (f : List (List String) → List (List String)) :
    (updateNodeNeighbors nodes k f).map levelProj = nodes.map levelProj := by
  unfold updateNodeNeighbors
  rw [List.map_map]
  congr 1
  funext kn
  by_cases h : kn.1 = k <;> simp [levelProj, Function.comp, h]

theorem addNeighborLinkNodes_levels (dim : Nat) (deleted : List String) (key : String)
    (lc m : Nat) (nodes : NodeMap α) (nk : String) :
    (addNeighborLinkNodes dim deleted key lc m nodes nk).map levelProj
      = nodes.map levelProj := by
  simp only [addNeighborLinkNodes]
  split
  · rw [updateNodeNeighbors_map_levels]
  · split
    · split
      · simp only [updateNodeNeighbors_map_levels]
      · simp only [updateNodeNeighbors_map_levels]
    · rw [updateNodeNeighbors_map_levels]

theorem insertAtLayer_levels (key : String) (q : Vec α) (deleted : List String)
    (dim mPar maxM efc : Nat) (p : NodeMap α × String) (lc : Nat) :
    ((insertAtLayer key q deleted dim mPar maxM efc p lc).1).map levelProj
      = p.1.map levelProj := by
  unfold insertAtLayer
  simp only
  generalize (selectNeighborsHeuristic dim p.1 deleted
    (searchLayer dim p.1 deleted q p.2 efc lc) q (if lc = 0 then maxM else mPar)) = nbrs
  induction nbrs generalizing p with
  | nil => rfl
  | cons b rest ih =>
    rw [List.foldl_cons]
    have := ih ⟨addNeighborLinkNodes dim deleted key lc (if lc = 0 then maxM else mPar) p.1 b, p.2⟩
    simp only at this
    rw [this, addNeighborLinkNodes_levels]

theorem wireLayers_levels (key : String) (q : Vec α) (deleted : List String)
    (dim mPar maxM efc : Nat) (layers : List Nat) (p : NodeMap α × String) :
    ((layers.foldl (insertAtLayer key q deleted dim mPar maxM efc) p).1).map levelProj
      = p.1.map levelProj := by
  induction layers generalizing p with
  | nil => rfl
  | cons lc rest ih =>
    rw [List.foldl_cons, ih, insertAtLayer_levels]

theorem lookup_append_some {β : Type} (l l' : List (String × β)) (k : String) (v : β)
    (h : l.lookup k = some v) : (l ++ l').lookup k = some v := by
  induction l with
  | nil => simp [List.lookup] at h
  | cons a rest ih =>
    rw [List.cons_append]
    simp only [List.lookup] at h ⊢
    cases hk : (k == a.1) with
    | false =>
      simp only [hk] at h ⊢
      exact ih h
    | true =>
      simp only [hk] at h ⊢
      exact h

theorem lookup_append_none {β : Type} (l l' : List (String × β)) (k : String)
    (h : l.lookup k = none) : (l ++ l').lookup k = l'.lookup k := by
  induction l with
  | nil => rfl
  | cons a rest ih =>
    rw [List.cons_append]
    simp only [List.lookup] at h ⊢
    cases hk : (k == a.1) with
    | false =>
      simp only [hk] at h ⊢
      exact ih h
    | true =>
      simp only [hk] at h
      simp at h

theorem lookup_map_levels (nodes : NodeMap α) (k : String) :
    (nodes.map levelProj).lookup k = (nodes.lookup k).map (fun n => n.maxLevel) := by
  induction nodes with
  | nil => rfl
  | cons a rest ih =>
    simp only [List.map_cons, List.lookup, levelProj]
    cases hk : (k == a.1) with
    | false =>
      simp only [hk]
      exact ih
    | true => rfl

theorem hnswInsert_entryMax (s : HNSWState α) (key : String) (v : Vec α)
    (off lvl : Nat) (hkey : key ≠ "") (hs : EntryMax s) :
    EntryMax (hnswInsert s key v off lvl) := by
  unfold hnswInsert
  by_cases hdim : v.length ≠ s.dim
  · rw [if_pos hdim]; exact hs
  rw [if_neg hdim]
  by_cases hdup : (s.nodes.lookup key).isSome
  · rw [if_pos hdup]; exact hs
  rw [if_neg hdup]
  have hnone : s.nodes.lookup key = none := by
    cases h : s.nodes.lookup key with
    | none => rfl
    | some _ => rw [h] at hdup; simp at hdup
  simp only
  by_cases hempty : s.entry = ""
  · rw [if_pos hempty]
    have hnil : s.nodes = [] := hs.1.mp hempty
    constructor
    · constructor
      · intro h; exact absurd h hkey
      · intro h; simp [hnil] at h
    · intro _
      refine ⟨lvl, ?_, ?_⟩
      · simp [nodeLevels, hnil, levelProj, List.lookup]
      · intro p hp
        simp [nodeLevels, hnil, levelProj] at hp
        rw [hp]
  · rw [if_neg hempty]
    have hne : s.nodes ≠ [] := fun h => hempty (hs.1.mpr h)
    obtain ⟨L, hL, hmax⟩ := hs.2 hne
    -- node levels after wiring: the old ones followed by the new node's
    have hlev : ∀ (curr0 : String),
        ((((List.range (lvl + 1)).reverse).foldl
            (insertAtLayer key v s.deleted s.dim s.m s.maxM s.efConstruction)
            (s.nodes ++ [(key, ⟨v, off, lvl, List.replicate (lvl + 1) []⟩)], curr0)).1).map levelProj
          = s.nodes.map levelProj ++ [(key, lvl)] := by
      intro curr0
      rw [wireLayers_levels]
      simp [levelProj]
    set curr0 := ((List.range' (lvl + 1)
        ((nodeD (s.nodes ++ [(key, ⟨v, off, lvl, List.replicate (lvl + 1) []⟩)]) s.entry).maxLevel - lvl)).reverse).foldl
      (descendStep s.dim (s.nodes ++ [(key, ⟨v, off, lvl, List.replicate (lvl + 1) []⟩)]) s.deleted v) s.entry with hcurr0
    set wired := ((List.range (lvl + 1)).reverse).foldl
      (insertAtLayer key v s.deleted s.dim s.m s.maxM s.efConstruction)
      (s.nodes ++ [(key, ⟨v, off, lvl, List.replicate (lvl + 1) []⟩)], curr0) with hwired
    have hwlev : (wired.1).map levelProj = s.nodes.map levelProj ++ [(key, lvl)] := hlev curr0
    have hwne : wired.1 ≠ [] := by
      intro h
      rw [h] at hwlev
      simp at hwlev
    -- the entry's recorded level survives the wiring
    have hlookupL : ((wired.1).map levelProj).lookup s.entry = some L := by
      rw [hwlev]
      apply lookup_append_some
      exact hL
    have hentryLevel : (nodeD wired.1 s.entry).maxLevel = L := by
      rw [lookup_map_levels] at hlookupL
      cases h : wired.1.lookup s.entry with
      | none => rw [h] at hlookupL; simp at hlookupL
      | some n =>
        rw [h] at hlookupL
        simp at hlookupL
        simp [nodeD, h, hlookupL]
    by_cases hpromote : lvl > (nodeD wired.1 s.entry).maxLevel
    · rw [if_pos hpromote]
      constructor
      · constructor
        · intro h; exact absurd h hkey
        · intro h; exact absurd h hwne
      · intro _
        refine ⟨lvl, ?_, ?_⟩
        · show ((wired.1).map levelProj).lookup key = some lvl
          rw [hwlev]
          rw [lookup_append_none]
          · simp [List.lookup]
          · rw [lookup_map_levels, hnone]
            rfl
        · intro p hp
          show p.2 ≤ lvl
          rw [show nodeLevels { s with nodes := wired.1, entry := key } = (wired.1).map levelProj from rfl,
            hwlev] at hp
          rw [List.mem_append] at hp
          rcases hp with hp | hp
          · have := hmax p hp
            rw [hentryLevel] at hpromote
            omega
          · simp at hp
            rw [hp]
    · rw [if_neg hpromote]
      constructor
      · constructor
        · intro h; exact absurd h hempty
        · intro h; exact absurd h hwne
      · intro _
        refine ⟨L, ?_, ?_⟩
        · show ((wired.1).map levelProj).lookup s.entry = some L
          exact hlookupL
        · intro p hp
          show p.2 ≤ L
          rw [show nodeLevels { s with nodes := wired.1 } = (wired.1).map levelProj from rfl,
            hwlev] at hp
          rw [List.mem_append] at hp
          rcases hp with hp | hp
          · exact hmax p hp
          · simp at hp
            rw [hp, hentryLevel] at *
            simp only
            omega

theorem hnswRemove_entryMax (s : HNSWState α) (key : String) (hs : EntryMax s) :
    EntryMax (hnswRemove s key).2 := by
  unfold hnswRemove
  cases h : s.nodes.lookup key with
  | none => exact hs
  | some _ => exact hs

/-- C8 (amended): after any sequence of inserts and removes with non-empty
keys, the entry point is a *current* node (present in `nodes_`) carrying
the maximum `max_level` over all current nodes — but it may be tombstoned,
since `remove` only adds to `deleted_keys_` and never relocates
`entry_point_`. -/
theorem hnsw_entry_level_invariant (dim : Nat) (ops : List (HnswOp α))
    (hkey : ∀ op ∈ ops, hnswOpKey op ≠ "") :
    EntryMax (runHnswOps dim ops) := by
  unfold runHnswOps
  induction ops using List.reverseRecOn with
  | nil =>
    constructor
    · simp [hnswInit]
    · intro h; exact absurd rfl h
  | append_singleton ops op ih =>
    rw [List.foldl_append, List.foldl_cons, List.foldl_nil]
    have hprev := ih (fun o ho => hkey o (List.mem_append_left _ ho))
    have hop : hnswOpKey op ≠ "" := hkey op (List.mem_append_right _ (List.mem_singleton_self op))
    cases op with
    | ins k v off lvl =>
      exact hnswInsert_entryMax _ k v off lvl hop hprev
    | rem k =>
      exact hnswRemove_entryMax _ k hprev

theorem hnsw_entry_level_invariant_witness :
    (∀ op ∈ ([.ins "a" [(0 : ℤ)] 0 2, .ins "b" [3] 1 0, .rem "a"] : List (HnswOp ℤ)),
      hnswOpKey op ≠ "")
    ∧ EntryMax (runHnswOps 1 ([.ins "a" [(0 : ℤ)] 0 2, .ins "b" [3] 1 0, .rem "a"] : List (HnswOp ℤ))) :=
  ⟨by decide, hnsw_entry_level_invariant 1 _ (by decide)⟩

/-- C8 (counterexample): insert `a` then `b`, then remove `a`. The entry
point stays `a`, which is now tombstoned, while the index still holds the
live node `b` — so the entry point of a non-empty index need not be a
non-deleted node. -/
theorem hnsw_entry_point_tombstoned :
    (runHnswOps 1 ([.ins "a" [0] 0 0, .ins "b" [1] 1 0, .rem "a"] : List (HnswOp ℤ))).entry = "a"
    ∧ "a" ∈ (runHnswOps 1 ([.ins "a" [0] 0 0, .ins "b" [1] 1 0, .rem "a"] : List (HnswOp ℤ))).deleted
    ∧ "b" ∉ (runHnswOps 1 ([.ins "a" [0] 0 0, .ins "b" [1] 1 0, .rem "a"] : List (HnswOp ℤ))).deleted
    ∧ (runHnswOps 1 ([.ins "a" [0] 0 0, .ins "b" [1] 1 0, .rem "a"] : List (HnswOp ℤ))).nodes ≠ [] := by
  decide

/-- C7: the flipped heap comparators make `search` return the *farthest*
candidates, ordered descending by distance, instead of the nearest k
ascending. With nodes `a = [0]`, `b = [5]`, `c = [10]` (inserted at level 0
in that order, entry point `a`):
* `search([0], 2)` returns `[c (distance² 100), b (distance² 25)]` — the
  two farthest keys, descending — while the claimed top-2 ascending result
  is `[a (0), b (25)]`;
* after tombstoning `a`, `search([10], 2)` returns only `[b (25)]` even
  though the layer-0 candidate set `{a, b, c}` holds the two non-tombstoned
  keys `b` and `c`: the tombstoned entry `a` is among the first `k`
  candidates and is skipped after the `min(k, |candidates|)` cut. -/
theorem hnsw_search_returns_farthest_first :
    hnswSearch (runHnswOps 1 ([.ins "a" [0] 0 0, .ins "b" [5] 1 0, .ins "c" [10] 2 0] :
        List (HnswOp ℤ))) [0] 2
      = [("c", ((100 : ℤ) : Dist ℤ)), ("b", ((25 : ℤ) : Dist ℤ))]
    ∧ hnswSearch (runHnswOps 1 ([.ins "a" [0] 0 0, .ins "b" [5] 1 0, .ins "c" [10] 2 0,
        .rem "a"] : List (HnswOp ℤ))) [10] 2
      = [("b", ((25 : ℤ) : Dist ℤ))] := by
  constructor <;> decide

/-! ### KV store (vector variant, `src/unnamed/part_002`)

`KVStore` couples the append log with the HNSW index and a key → offset
table. The log is modelled at record granularity here (`AppendLogState`),
with each record's byte size taken from the serialization layout of C6; the
timestamp each operation draws from the clock is an explicit argument, as
is the level drawn for each HNSW insertion. -/

inductive RecordType where
  | insert
  | delete
  | commit
  | checkpoint
deriving DecidableEq, Repr

structure LogRecord (α : Type) where
  type : RecordType
  transactionId : Nat
  key : String
  value : String
  vectorData : Vec α
  timestamp : Nat
  isVector : Bool
deriving DecidableEq

/-- The string-payload `LogRecord` constructor (`is_vector = false`). -/
def LogRecord.ofString (t : RecordType) (tid : Nat) (k v : String) (ts : Nat) :
    LogRecord α := ⟨t, tid, k, v, [], ts, false⟩

/-- The vector-payload `LogRecord` constructor (`is_vector = true`). -/
def LogRecord.ofVector (t : RecordType) (tid : Nat) (k : String) (vec : Vec α)
    (ts : Nat) : LogRecord α := ⟨t, tid, k, "", vec, ts, true⟩

/-- On-disk size of a record per `serialize_record` (C6). -/
def LogRecord.byteSize (r : LogRecord α) : Nat :=
  26 + r.key.length + (if r.isVector then 4 * r.vectorData.length else r.value.length)

structure AppendLogState (α : Type) where
  records : List (LogRecord α)
  currentOffset : Nat
deriving DecidableEq

/-- `AppendLog::append` at record granularity. -/
def appendRecord (s : AppendLogState α) (r : LogRecord α) : Nat × AppendLogState α :=
  (s.currentOffset, ⟨s.records ++ [r], s.currentOffset + r.byteSize⟩)

/-- `index_[key] = offset` on the key → offset table. -/
def indexSet (idx : List (String × Nat)) (k : String) (off : Nat) : List (String × Nat) :=
  if (idx.lookup k).isSome then idx.map (fun p => if p.1 == k then (k, off) else p)
  else idx ++ [(k, off)]

/-- `index_.erase(key)`. -/
def indexErase (idx : List (String × Nat)) (k : String) : List (String × Nat) :=
  idx.filter (fun p => p.1 ≠ k)

structure KVState (α : Type) where
  log : AppendLogState α
  index : List (String × Nat)
  hnsw : HNSWState α
deriving DecidableEq

/-- `KVStore::put_vector`: append an INSERT record, point the index at the
returned offset, and hand the vector to `HNSW::insert`; returns true
unconditionally. -/
def putVector (st : KVState α) (txn : Nat) (key : String) (v : Vec α) (ts lvl : Nat) :
    Bool × KVState α :=
  let rcd : LogRecord α := LogRecord.ofVector .insert txn key v ts
  let off := (appendRecord st.log rcd).1
  (true,
   { log := (appendRecord st.log rcd).2,
     index := indexSet st.index key off,
     hnsw := hnswInsert st.hnsw key v off lvl })

/-- `KVStore::remove` (vector variant): fail on an unknown key, otherwise
append a DELETE record (built through the vector constructor, so
`is_vector = true` with an empty payload), drop the index entry and
tombstone the HNSW node. -/
def kvRemove (st : KVState α) (txn : Nat) (key : String) (ts : Nat) : Bool × KVState α :=
  match st.index.lookup key with
  | none => (false, st)
  | some _ =>
    (true,
     { log := (appendRecord st.log (LogRecord.ofVector .delete txn key [] ts)).2,
       index := indexErase st.index key,
       hnsw := (hnswRemove st.hnsw key).2 })

/-- `KVStore::commit`: append a COMMIT record and fsync. -/
def kvCommit (st : KVState α) (txn ts : Nat) : KVState α :=
  { st with log := (appendRecord st.log (LogRecord.ofVector .commit txn "" [] ts)).2 }

/-- One record of `KVStore::replay_log`: an INSERT with a vector payload is
applied immediately — no buffering by transaction and no look for a COMMIT
record — a DELETE is applied immediately as well, everything else
(including COMMIT) is skipped; the rolling offset estimate then advances by
the constant 100. The accumulator is (index, hnsw, offset, level oracle). -/
def replayFold (acc : List (String × Nat) × HNSWState α × Nat × List Nat)
    (r : LogRecord α) : List (String × Nat) × HNSWState α × Nat × List Nat :=
  let (idx, h, off, lv) := acc
  if r.type = .insert ∧ r.isVector then
    (indexSet idx r.key off, hnswInsert h r.key r.vectorData off (lv.headD 0),
     off + 100, lv.tail)
  else if r.type = .delete then
    (indexErase idx r.key, (hnswRemove h r.key).2, off + 100, lv)
  else (idx, h, off + 100, lv)

/-- `KVStore::replay_log` over a scanned record list, starting from fresh
in-memory state. -/
def replayLog (dim : Nat) (records : List (LogRecord α)) (levels : List Nat) :
    List (String × Nat) × HNSWState α × Nat × List Nat :=
  records.foldl replayFold ([], hnswInit dim, 0, levels)

/-- C1: recovery does not buffer records until their transaction's COMMIT.
Replaying a log holding a single INSERT of transaction 1 — and *no* COMMIT
record at all — still installs the key in the rebuilt index and inserts it
into the HNSW graph, where the claim requires such an uncommitted record to
be discarded without being applied. -/
theorem replay_applies_uncommitted_insert :
    (replayLog 1 [LogRecord.ofVector .insert 1 "k" [(0 : ℤ)] 7] [0]).1.lookup "k" = some 0
    ∧ hnswGet (replayLog 1 [LogRecord.ofVector .insert 1 "k" [(0 : ℤ)] 7] [0]).2.1 "k"
        = some ([(0 : ℤ)], 0)
    ∧ (∀ r ∈ [LogRecord.ofVector .insert 1 "k" [(0 : ℤ)] 7], r.type ≠ RecordType.commit) := by
  refine ⟨by decide, by decide, by decide⟩

theorem indexSet_lookup_map (idx : List (String × Nat)) (k : String) (off : Nat) :
    (idx.map (fun p => if p.1 == k then (k, off) else p)).lookup k
      = if (idx.lookup k).isSome then some off else none := by
  induction idx with
  | nil => rfl
  | cons a rest ih =>
    obtain ⟨a1, a2⟩ := a
    cases hbeq : (a1 == k) with
    | true =>
      have hk : a1 = k := beq_iff_eq.mp hbeq
      subst hk
      dsimp only [List.map_cons]
      rw [hbeq]
      simp [List.lookup]
    | false =>
      have hkb : (k == a1) = false := by
        rw [beq_eq_false_iff_ne] at hbeq ⊢
        exact fun hkk => hbeq hkk.symm
      dsimp only [List.map_cons]
      rw [hbeq]
      simp only [List.lookup, hkb, Bool.false_eq_true, if_false]
      simpa using ih

theorem indexSet_lookup_self (idx : List (String × Nat)) (k : String) (off : Nat) :
    (indexSet idx k off).lookup k = some off := by
  unfold indexSet
  by_cases h : (idx.lookup k).isSome
  · rw [if_pos h, indexSet_lookup_map, if_pos h]
  · rw [if_neg h]
    have hnone : idx.lookup k = none := by
      cases hc : idx.lookup k with
      | none => rfl
      | some _ => rw [hc] at h; simp at h
    rw [lookup_append_none _ _ _ hnone]
    simp [List.lookup]

/-- C10: `HNSW::insert` returns before touching anything when the vector's
size differs from the configured dimension or a node with the key already
exists — tombstoned nodes included, since `remove` never shrinks `nodes_`
(last conjunct) — so such an insert never updates the stored vector and
never resurrects a deleted key; yet `KVStore::put_vector` still appends the
INSERT log record and repoints the key → offset entry at the new offset. -/
theorem hnsw_insert_noop_put_vector_logs (st : KVState α) (key : String) (v : Vec α)
    (txn ts lvl : Nat)
    (h : v.length ≠ st.hnsw.dim ∨ (st.hnsw.nodes.lookup key).isSome) :
    (∀ off, hnswInsert st.hnsw key v off lvl = st.hnsw)
    ∧ (putVector st txn key v ts lvl).2.hnsw = st.hnsw
    ∧ (putVector st txn key v ts lvl).2.log.records
        = st.log.records ++ [LogRecord.ofVector .insert txn key v ts]
    ∧ (putVector st txn key v ts lvl).2.index.lookup key = some st.log.currentOffset
    ∧ (∀ k, ((hnswRemove st.hnsw k).2).nodes = st.hnsw.nodes) := by
  have hnoop : ∀ off, hnswInsert st.hnsw key v off lvl = st.hnsw := by
    intro off
    unfold hnswInsert
    by_cases hdim : v.length ≠ st.hnsw.dim
    · rw [if_pos hdim]
    · rw [if_neg hdim]
      rcases h with hcase | hcase
      · exact absurd hcase hdim
      · rw [if_pos hcase]
  refine ⟨hnoop, ?_, rfl, ?_, ?_⟩
  · show hnswInsert st.hnsw key v (appendRecord st.log (LogRecord.ofVector .insert txn key v ts)).1 lvl = st.hnsw
    exact hnoop _
  · exact indexSet_lookup_self st.index key st.log.currentOffset
  · intro k
    unfold hnswRemove
    cases hc : st.hnsw.nodes.lookup k with
    | none => rfl
    | some _ => rfl

theorem hnsw_insert_noop_put_vector_logs_witness :
    (([(2 : ℤ)] : Vec ℤ).length ≠ (runHnswOps 1 ([.ins "k" [2] 0 0, .rem "k"] : List (HnswOp ℤ))).dim
      ∨ ((runHnswOps 1 ([.ins "k" [2] 0 0, .rem "k"] : List (HnswOp ℤ))).nodes.lookup "k").isSome)
    ∧ ((∀ off, hnswInsert (runHnswOps 1 ([.ins "k" [2] 0 0, .rem "k"] : List (HnswOp ℤ))) "k" [2] off 0
          = runHnswOps 1 ([.ins "k" [2] 0 0, .rem "k"] : List (HnswOp ℤ)))
       ∧ (putVector ⟨⟨[], 31⟩, [("k", 0)], runHnswOps 1 ([.ins "k" [2] 0 0, .rem "k"] : List (HnswOp ℤ))⟩
            2 "k" [2] 9 0).2.hnsw = runHnswOps 1 ([.ins "k" [2] 0 0, .rem "k"] : List (HnswOp ℤ))
       ∧ (putVector ⟨⟨[], 31⟩, [("k", 0)], runHnswOps 1 ([.ins "k" [2] 0 0, .rem "k"] : List (HnswOp ℤ))⟩
            2 "k" [2] 9 0).2.log.records = [] ++ [LogRecord.ofVector .insert 2 "k" [2] 9]
       ∧ (putVector ⟨⟨[], 31⟩, [("k", 0)], runHnswOps 1 ([.ins "k" [2] 0 0, .rem "k"] : List (HnswOp ℤ))⟩
            2 "k" [2] 9 0).2.index.lookup "k" = some 31
       ∧ (∀ k, ((hnswRemove (runHnswOps 1 ([.ins "k" [2] 0 0, .rem "k"] : List (HnswOp ℤ))) k).2).nodes
            = (runHnswOps 1 ([.ins "k" [2] 0 0, .rem "k"] : List (HnswOp ℤ))).nodes)) :=
  ⟨by decide,
   hnsw_insert_noop_put_vector_logs
     ⟨⟨[], 31⟩, [("k", 0)], runHnswOps 1 ([.ins "k" [2] 0 0, .rem "k"] : List (HnswOp ℤ))⟩
     "k" [2] 2 9 0 (by decide)⟩

/-! ### Transaction manager (`src/unnamed/part_003`)

`TransactionManager` stores per-transaction state `(txn_id, state,
write_set)` and owns a `LockManager` (here a lock table keyed by string
plus the `txn_locks_` map). `acquire_lock` blocks the calling thread until
granted; the model returns a `blocked` outcome carrying the state with the
request queued whenever the immediate grant of `can_grant_lock` fails. -/

/-- Assignment into an association-list map (`std::map` / `std::unordered_map`
`operator[] =`): replace the entry if the key is present, append otherwise. -/
def alistSet {κ β : Type} [BEq κ] (l : List (κ × β)) (k : κ) (v : β) : List (κ × β) :=
  if (l.lookup k).isSome then l.map (fun p => if p.1 == k then (k, v) else p)
  else l ++ [(k, v)]

theorem alistSet_lookup_self {κ β : Type} [BEq κ] [LawfulBEq κ]
    (l : List (κ × β)) (k : κ) (v : β) : (alistSet l k v).lookup k = some v := by
  unfold alistSet
  by_cases h : (l.lookup k).isSome
  · rw [if_pos h]
    induction l with
    | nil => simp [List.lookup] at h
    | cons a rest ih =>
      obtain ⟨a1, a2⟩ := a
      cases hbeq : (k == a1) with
      | true =>
        have hk : a1 = k := (eq_of_beq hbeq).symm
        subst hk
        simp [List.lookup_cons]
      | false =>
        have hab : (a1 == k) = false := by
          cases hab : (a1 == k) with
          | false => rfl
          | true => rw [eq_of_beq hab, beq_self_eq_true] at hbeq; cases hbeq
        simp only [List.lookup_cons, hbeq, cond_false] at h
        simp [List.lookup_cons, hbeq, hab]
        exact ih h
  · rw [if_neg h]
    induction l with
    | nil => simp [List.lookup_cons]
    | cons a rest ih =>
      obtain ⟨a1, a2⟩ := a
      cases hbeq : (k == a1) with
      | true =>
        exfalso
        apply h
        simp [List.lookup_cons, hbeq]
      | false =>
        rw [List.cons_append]
        simp only [List.lookup_cons, hbeq, cond_false]
        apply ih
        intro habs
        apply h
        simp only [List.lookup_cons, hbeq, cond_false]
        exact habs

abbrev LockTable := List (String × LockQueue)

/-- `locks_[key]`: per-key queue, default-constructed on first touch. -/
def ltGet (lt : LockTable) (k : String) : LockQueue :=
  (lt.lookup k).getD LockQueue.empty

structure LMState where
  locks : LockTable
  txnLocks : List (Nat × List String)
deriving DecidableEq

def lmInit : LMState := ⟨[], []⟩

/-- Record `key` into `txn_locks_[txn_id]`. -/
def tlAdd (tl : List (Nat × List String)) (t : Nat) (key : String) :
    List (Nat × List String) :=
  match tl.lookup t with
  | some ks => alistSet tl t (setInsertStr key ks)
  | none => tl ++ [(t, [key])]

/-- `LockManager::acquire_lock` across the whole lock table: grant
immediately when compatible (returning `true`), otherwise queue the request
and report `false` — the C++ thread then blocks on the condition variable
and the call does not return. -/
def lmAcquire (lm : LMState) (t : Nat) (key : String) (m : LockMode) : Bool × LMState :=
  let q := ltGet lm.locks key
  if canGrantLock q m then
    let q' := match m with
      | .shared => { q with holdersShared := holdersInsert t q.holdersShared }
      | .exclusive => { q with holderExclusive := t }
    (true, ⟨alistSet lm.locks key q', tlAdd lm.txnLocks t key⟩)
  else
    (false, ⟨alistSet lm.locks key { q with requests := q.requests ++ [⟨t, m, false⟩] }, lm.txnLocks⟩)

/-- `LockManager::release_all_locks`: for every key recorded for the
transaction, drop its holdership and rerun the grant scan; then erase the
transaction's entry. -/
def lmReleaseAll (lm : LMState) (t : Nat) : LMState :=
  match lm.txnLocks.lookup t with
  | none => lm
  | some keys =>
    ⟨keys.foldl
      (fun lks k =>
        match lks.lookup k with
        | none => lks
        | some q =>
          alistSet lks k (grantLocks
            { q with
              holdersShared := q.holdersShared.erase t
              holderExclusive := if q.holderExclusive = t then 0 else q.holderExclusive }))
      lm.locks,
     lm.txnLocks.filter (fun p => p.1 ≠ t)⟩

inductive TxnState where
  | active
  | committed
  | aborted
deriving DecidableEq, Repr

structure Txn (α : Type) where
  txnId : Nat
  state : TxnState
  writeSet : List (String × Vec α)
deriving DecidableEq

structure TMState (α : Type) where
  store : KVState α
  lm : LMState
  txns : List (Nat × Txn α)
  nextId : Nat
deriving DecidableEq

/-- `TransactionManager::begin_transaction`. -/
def tmBegin (s : TMState α) : Nat × TMState α :=
  (s.nextId,
   { s with txns := s.txns ++ [(s.nextId, ⟨s.nextId, .active, []⟩)], nextId := s.nextId + 1 })

/-- Outcome of a transaction-manager call: `ok`/`fail` mirror the returned
bool; `blocked` is an `acquire_lock` that queued the request and parked the
calling thread, so the call never returns. -/
inductive TMRes (α : Type) where
  | ok (s : TMState α)
  | fail (s : TMState α)
  | blocked (s : TMState α)
deriving DecidableEq

def TMRes.state : TMRes α → TMState α
  | .ok s => s
  | .fail s => s
  | .blocked s => s

def TMRes.isOk : TMRes α → Bool
  | .ok _ => true
  | _ => false

/-- `TransactionManager::write`: refuse unknown or non-active transactions,
acquire X on the key, then add or update the write-set entry in place. The
store and the log are untouched. -/
def tmWrite (s : TMState α) (t : Nat) (key : String) (v : Vec α) : TMRes α :=
  match s.txns.lookup t with
  | none => .fail s
  | some txn =>
    if txn.state ≠ .active then .fail s
    else
      match lmAcquire s.lm t key .exclusive with
      | (false, lm') => .blocked { s with lm := lm' }
      | (true, lm') =>
        .ok { s with lm := lm',
                     txns := alistSet s.txns t { txn with writeSet := alistSet txn.writeSet key v } }

/-- Outcome of `TransactionManager::read`. -/
inductive ReadRes (α : Type) where
  | ok (v : Vec α) (s : TMState α)
  | fail (s : TMState α)
  | blocked (s : TMState α)
deriving DecidableEq

def ReadRes.isBlocked : ReadRes α → Bool
  | .blocked _ => true
  | _ => false

def ReadRes.state : ReadRes α → TMState α
  | .ok _ s => s
  | .fail s => s
  | .blocked s => s

/-- `TransactionManager::read`: refuse unknown or non-active transactions,
acquire S on the key (no reentrancy test — `can_grant_lock` only inspects
the holder fields), then serve read-your-writes from the write set before
falling back to the store. -/
def tmRead (s : TMState α) (t : Nat) (key : String) : ReadRes α :=
  match s.txns.lookup t with
  | none => .fail s
  | some txn =>
    if txn.state ≠ .active then .fail s
    else
      match lmAcquire s.lm t key .shared with
      | (false, lm') => .blocked { s with lm := lm' }
      | (true, lm') =>
        let s' := { s with lm := lm' }
        match txn.writeSet.lookup key with
        | some v => .ok v s'
        | none =>
          match hnswGet s.store.hnsw key with
          | some (v, _) => .ok v s'
          | none => .fail s'

/-- `TransactionManager::remove`: refuse unknown or non-active
transactions, acquire X on the key, then *immediately* run
`KVStore::remove` — appending a DELETE record to the log and dropping the
key from the in-memory index — with no marker in the write set. -/
def tmRemove (s : TMState α) (t : Nat) (key : String) (ts : Nat) : TMRes α :=
  match s.txns.lookup t with
  | none => .fail s
  | some txn =>
    if txn.state ≠ .active then .fail s
    else
      match lmAcquire s.lm t key .exclusive with
      | (false, lm') => .blocked { s with lm := lm' }
      | (true, lm') =>
        match kvRemove s.store t key ts with
        | (true, st') => .ok { s with lm := lm', store := st' }
        | (false, st') => .fail { s with lm := lm', store := st' }

/-- `TransactionManager::rollback_transaction`: refuse unknown or
non-active transactions; otherwise mark ABORTED, release all locks and
erase the transaction — without touching the store or the log. -/
def tmRollback (s : TMState α) (t : Nat) : TMRes α :=
  match s.txns.lookup t with
  | none => .fail s
  | some txn =>
    if txn.state ≠ .active then .fail s
    else
      .ok { s with lm := lmReleaseAll s.lm t,
                   txns := s.txns.filter (fun p => p.1 ≠ t) }

/-- The store with one committed key `"k" ↦ [2]` used by the C2 run. -/
def c2Store : KVState ℤ :=
  ⟨⟨[LogRecord.ofVector .insert 5 "k" [2] 0], 31⟩, [("k", 0)],
   runHnswOps 1 ([.ins "k" [2] 0 0] : List (HnswOp ℤ))⟩

def c2Init : TMState ℤ := ⟨c2Store, lmInit, [], 1⟩

/-- C2: `remove` does not buffer a DELETE marker — it deletes through the
store at once — so rollback cannot undo it. Starting from a store holding
`"k"`: BEGIN (txn 1), `remove(1, "k")` succeeds and has *already* appended
a DELETE log record of txn 1 and dropped `"k"` from the index and the HNSW
view; the subsequent `rollback(1)` succeeds but the DELETE record is still
in the log and `"k"` stays gone, where the claim requires that after
rollback none of txn 1's removes is visible and no DELETE record stemming
from its operations has been appended. -/
theorem remove_logs_delete_despite_rollback :
    (tmRemove (tmBegin c2Init).2 1 "k" 9).isOk = true
    ∧ (tmRollback (tmRemove (tmBegin c2Init).2 1 "k" 9).state 1).isOk = true
    ∧ (tmRollback (tmRemove (tmBegin c2Init).2 1 "k" 9).state 1).state.store.log.records
        = [LogRecord.ofVector .insert 5 "k" [2] 0, LogRecord.ofVector .delete 1 "k" [] 9]
    ∧ (tmRollback (tmRemove (tmBegin c2Init).2 1 "k" 9).state 1).state.store.index.lookup "k"
        = none
    ∧ hnswGet (tmRollback (tmRemove (tmBegin c2Init).2 1 "k" 9).state 1).state.store.hnsw "k"
        = none := by
  refine ⟨by decide, by decide, by decide, by decide, by decide⟩

def c3Init : TMState ℤ := ⟨⟨⟨[], 0⟩, [], hnswInit 1⟩, lmInit, [], 1⟩

/-- C3: read-your-writes deadlocks instead of returning the buffered value.
After BEGIN (txn 1) and `write(1, "k", [3])` — which succeeds, holds X on
`"k"` and buffers the value in the write set — `read(1, "k")` calls
`acquire_lock(1, "k", SHARED)`; `can_grant_lock` sees the exclusive holder
(the same transaction — there is no reentrancy check) and queues the
request, parking the thread before the write set is ever consulted.  The
queued request is a fixed point of `grant_locks`, and only a release by the
holder — the parked transaction itself — could change that, so the call
never returns. -/
theorem read_after_write_self_deadlock :
    (tmWrite (tmBegin c3Init).2 1 "k" [3]).isOk = true
    ∧ ((tmWrite (tmBegin c3Init).2 1 "k" [3]).state.txns.lookup 1).map
        (fun txn => txn.writeSet.lookup "k") = some (some [3])
    ∧ (tmRead (tmWrite (tmBegin c3Init).2 1 "k" [3]).state 1 "k").isBlocked = true
    ∧ ltGet (tmRead (tmWrite (tmBegin c3Init).2 1 "k" [3]).state 1 "k").state.lm.locks "k"
        = ⟨[⟨1, .shared, false⟩], [], 1⟩
    ∧ grantLocks ⟨[⟨1, .shared, false⟩], [], 1⟩ = ⟨[⟨1, .shared, false⟩], [], 1⟩ := by
  refine ⟨by decide, by decide, by decide, by decide, by decide⟩

/-! ### CASPaxos register (`src/replication/caspaxos.cpp`)

One `CasPaxos` instance bundles the proposer (`current_epoch_`) and the
local acceptor (`highest_ballot_`, `values_`); `send_prepare` and
`send_commit` return empty vectors (no networking), so only the local
acceptor votes and with an empty replica list the quorum is
`(0 + 1) / 2 + 1 = 1`. -/

structure Ballot where
  epoch : Nat
  nodeId : Nat
deriving DecidableEq, Repr

/-- `Ballot::operator<`: lexicographic on (epoch, node_id). -/
def Ballot.lt (a b : Ballot) : Bool :=
  if a.epoch ≠ b.epoch then a.epoch < b.epoch else a.nodeId < b.nodeId

structure VersionedValue where
  ballot : Ballot
  value : String
  committed : Bool
deriving DecidableEq, Repr

structure PromiseMsg where
  ballot : Ballot
  key : String
  currentValue : Option VersionedValue
  highestBallot : Ballot
deriving DecidableEq, Repr

structure AckMsg where
  ballot : Ballot
  key : String
  success : Bool
deriving DecidableEq, Repr

structure CasState where
  nodeId : Nat
  replicas : List String
  epoch : Nat
  highest : Ballot
  values : List (String × VersionedValue)
deriving DecidableEq, Repr

/-- `CasPaxos(node_id, replicas)`: proposer epoch 1, acceptor highest
ballot `(0, node_id)`, no values. -/
def casInit (nodeId : Nat) (replicas : List String) : CasState :=
  ⟨nodeId, replicas, 1, ⟨0, nodeId⟩, []⟩

/-- `AcceptorState::handle_prepare`: reject below the promised ballot,
otherwise raise the promise and check the CAS precondition against the
stored value before answering with a PROMISE. -/
def handlePrepare (s : CasState) (b : Ballot) (k : String) (old : Option String) :
    Option PromiseMsg × CasState :=
  if Ballot.lt b s.highest then (none, s)
  else
    let s1 := { s with highest := b }
    let current := s1.values.lookup k
    match old with
    | some ov =>
      match current with
      | some vv =>
        if vv.value ≠ ov then (none, s1) else (some ⟨b, k, current, s1.highest⟩, s1)
      | none => (none, s1)
    | none => (some ⟨b, k, current, s1.highest⟩, s1)

/-- `AcceptorState::handle_commit`: reject below the promised ballot,
otherwise overwrite `values_[key]` with (ballot, value, committed). -/
def handleCommit (s : CasState) (b : Ballot) (k v : String) : AckMsg × CasState :=
  if Ballot.lt b s.highest then (⟨b, k, false⟩, s)
  else (⟨b, k, true⟩, { s with values := alistSet s.values k ⟨b, v, true⟩ })

/-- `ProposerState::get_next_ballot`. -/
def getNextBallot (s : CasState) : Ballot × CasState :=
  (⟨s.epoch, s.nodeId⟩, { s with epoch := s.epoch + 1 })

/-- `ProposerState::update_ballot`. -/
def updateBallot (s : CasState) (b : Ballot) : CasState :=
  if b.epoch ≥ s.epoch then { s with epoch := b.epoch + 1 } else s

/-- `CasPaxos::get_quorum_size`. -/
def quorumSize (s : CasState) : Nat := (s.replicas.length + 1) / 2 + 1

/-- `AcceptorState::get_value` as used by `CasPaxos::get`: the stored value
iff present and committed. -/
def casGet (s : CasState) (k : String) : Option String :=
  match s.values.lookup k with
  | some vv => if vv.committed then some vv.value else none
  | none => none

/-- `CasPaxos::cas`: draft the next ballot, PREPARE locally (remote
prepares return nothing), check the promise count against the quorum and
the promise's ballot against ours, then COMMIT locally and check the ack
count against the quorum. -/
def cas (s : CasState) (k : String) (old : Option String) (v : String) :
    Bool × CasState :=
  let b := (getNextBallot s).1
  let s1 := (getNextBallot s).2
  match handlePrepare s1 b k old with
  | (none, s2) => (false, s2)
  | (some promise, s2) =>
    if 1 < quorumSize s2 then (false, s2)
    else if Ballot.lt b promise.highestBallot then (false, updateBallot s2 promise.highestBallot)
    else
      let ack := (handleCommit s2 b k v).1
      let s3 := (handleCommit s2 b k v).2
      if ack.success = false then (false, s3)
      else if 1 < quorumSize s3 then (false, s3)
      else (true, s3)

/-- C9 (counterexample): on a single-node instance, after `cas("k", none,
"1")` commits the value "1", a CAS with `expected_old = "1"` and
`new_value = "1"` succeeds — and so does a *second* one: with
`new_value = expected_old` the committed value still equals the
expectation, so the claimed "a subsequent cas(K, expected_old = V, ...)
fails" is false. -/
theorem cas_same_value_succeeds_twice :
    (cas (cas (casInit 1 []) "k" none "1").2 "k" (some "1") "1").1 = true
    ∧ (cas (cas (cas (casInit 1 []) "k" none "1").2 "k" (some "1") "1").2
        "k" (some "1") "1").1 = true := by
  refine ⟨by decide, by decide⟩

theorem mem_of_lookup_eq_some {κ β : Type} [BEq κ] [LawfulBEq κ]
    {l : List (κ × β)} {k : κ} {v : β} (h : l.lookup k = some v) : (k, v) ∈ l := by
  induction l with
  | nil => simp [List.lookup] at h
  | cons a rest ih =>
    obtain ⟨a1, a2⟩ := a
    cases hbeq : (k == a1) with
    | true =>
      simp only [List.lookup_cons, hbeq, cond_true, Option.some.injEq] at h
      subst h
      rw [eq_of_beq hbeq]
      exact List.mem_cons_self _ _
    | false =>
      simp only [List.lookup_cons, hbeq, cond_false] at h
      exact List.mem_cons_of_mem _ (ih h)

theorem ballot_lt_self (b : Ballot) : Ballot.lt b b = false := by
  simp [Ballot.lt]

theorem ballot_lt_succ (e n : Nat) : Ballot.lt ⟨e + 1, n⟩ ⟨e, n⟩ = false := by
  simp [Ballot.lt]

/-- C9 (amended): on a single-node instance (empty replica list, quorum 1)
whose proposer is not behind its own acceptor and whose stored values are
all committed — as every reachable state is — `cas(K, expected_old = V,
W)` succeeds iff the currently committed value for `K` equals `V`; on
success the committed value becomes `W`; and *provided `W ≠ V`*, a
subsequent `cas(K, expected_old = V, ...)` fails.  (When `W = V` the
committed value still equals the expectation and the subsequent CAS
succeeds again — the counterexample.) -/
theorem cas_single_node_semantics (s : CasState) (K V W X : String)
    (hrep : s.replicas = [])
    (hball : Ballot.lt ⟨s.epoch, s.nodeId⟩ s.highest = false)
    (hcomm : ∀ p ∈ s.values, p.2.committed = true) :
    ((cas s K (some V) W).1 = true ↔ casGet s K = some V)
    ∧ ((cas s K (some V) W).1 = true → casGet (cas s K (some V) W).2 K = some W)
    ∧ ((cas s K (some V) W).1 = true → W ≠ V →
        (cas (cas s K (some V) W).2 K (some V) X).1 = false) := by
  cases hc : s.values.lookup K with
  | none =>
    have hcas : (cas s K (some V) W).1 = false := by
      simp [cas, getNextBallot, handlePrepare, hball, hc]
    rw [hcas]
    refine ⟨?_, ?_, ?_⟩
    · simp [casGet, hc]
    · intro habs; cases habs
    · intro habs; cases habs
  | some vv =>
    have hcommv : vv.committed = true := hcomm (K, vv) (mem_of_lookup_eq_some hc)
    by_cases hv : vv.value = V
    · have hcas : cas s K (some V) W
          = (true, ⟨s.nodeId, s.replicas, s.epoch + 1, ⟨s.epoch, s.nodeId⟩,
                    alistSet s.values K ⟨⟨s.epoch, s.nodeId⟩, W, true⟩⟩) := by
        simp [cas, getNextBallot, handlePrepare, handleCommit, quorumSize,
          hball, hc, hv, hrep, ballot_lt_self]
      rw [hcas]
      refine ⟨?_, ?_, ?_⟩
      · simp [casGet, hc, hcommv, hv]
      · intro _
        simp [casGet, alistSet_lookup_self]
      · intro _ hWV
        simp [cas, getNextBallot, handlePrepare, ballot_lt_succ,
          alistSet_lookup_self, hWV]
    · have hcas : (cas s K (some V) W).1 = false := by
        simp [cas, getNextBallot, handlePrepare, hball, hc, hv]
      rw [hcas]
      refine ⟨?_, ?_, ?_⟩
      · simp [casGet, hc, hcommv, hv]
      · intro habs; cases habs
      · intro habs; cases habs

theorem cas_single_node_semantics_witness :
    ((⟨1, [], 2, ⟨1, 1⟩, [("k", ⟨⟨1, 1⟩, "1", true⟩)]⟩ : CasState).replicas = []
     ∧ Ballot.lt ⟨2, 1⟩ (⟨1, 1⟩ : Ballot) = false
     ∧ (∀ p ∈ ([("k", ⟨⟨1, 1⟩, "1", true⟩)] : List (String × VersionedValue)),
          p.2.committed = true))
    ∧ (((cas ⟨1, [], 2, ⟨1, 1⟩, [("k", ⟨⟨1, 1⟩, "1", true⟩)]⟩ "k" (some "1") "2").1 = true
          ↔ casGet ⟨1, [], 2, ⟨1, 1⟩, [("k", ⟨⟨1, 1⟩, "1", true⟩)]⟩ "k" = some "1")
       ∧ ((cas ⟨1, [], 2, ⟨1, 1⟩, [("k", ⟨⟨1, 1⟩, "1", true⟩)]⟩ "k" (some "1") "2").1 = true
            → casGet (cas ⟨1, [], 2, ⟨1, 1⟩, [("k", ⟨⟨1, 1⟩, "1", true⟩)]⟩ "k" (some "1") "2").2 "k"
                = some "2")
       ∧ ((cas ⟨1, [], 2, ⟨1, 1⟩, [("k", ⟨⟨1, 1⟩, "1", true⟩)]⟩ "k" (some "1") "2").1 = true
            → "2" ≠ "1"
            → (cas (cas ⟨1, [], 2, ⟨1, 1⟩, [("k", ⟨⟨1, 1⟩, "1", true⟩)]⟩ "k" (some "1") "2").2
                 "k" (some "1") "3").1 = false)) :=
  ⟨⟨rfl, by decide, by decide⟩,
   cas_single_node_semantics ⟨1, [], 2, ⟨1, 1⟩, [("k", ⟨⟨1, 1⟩, "1", true⟩)]⟩
     "k" "1" "2" "3" rfl (by decide) (by decide)⟩

end SimpleDB
